import Mathlib

/-!
Verification of the gifski encoding pipeline core (`src/gifski-api/src/lib.rs`).

This file gives a shallow embedding, in Lean, of the pure computational parts
of the pipeline that the specification's claims are about:

* `colordiff` — the per-pixel perceptual difference (lib.rs `colordiff`);
* `dimensions_for_image` — the resize-target computation;
* the alpha-binarization pass of `Collector::resized_binary_alpha`;
* the ordinal / end-pts / importance-map logic of `Writer::make_diffs`;
* the importance attenuation pass of `Writer::quantize_frames`;
* the palette transparency consolidation loop of `Writer::remap_frames`;
* the delay computation and progress loop of `Writer::write_frames`.

Machine integers are modelled as `Nat`/`Int`; at every place where the Rust
code performs a narrowing cast or a saturating/truncated operation the model
either performs it explicitly (`% 256`, truncated `Nat` subtraction) or a
comment records why the operation cannot overflow for the values that reach
it.  Presentation timestamps (`f64` in the source) are modelled as rationals:
the claims under study are about which arithmetic expressions are computed,
not about floating-point rounding.
-/

/-- `rgb::RGBA8`: a pixel with four 8-bit channels.  Channels are modelled as
`Nat`; `RGBA.Valid` (below) states the 8-bit range where a proof needs it. -/
structure RGBA where
  r : Nat
  g : Nat
  b : Nat
  a : Nat
deriving DecidableEq, Repr

/-- The 8-bit range invariant of an `RGBA8` pixel. -/
def RGBA.Valid (p : RGBA) : Prop :=
  p.r ≤ 255 ∧ p.g ≤ 255 ∧ p.b ≤ 255 ∧ p.a ≤ 255

instance (p : RGBA) : Decidable p.Valid := by
  unfold RGBA.Valid; infer_instance

/-- `imgref::ImgVec<RGBA8>`: an owned image, stored as a flat row-major pixel
buffer together with its dimensions. -/
structure Image where
  width : Nat
  height : Nat
  data : List RGBA
deriving DecidableEq, Repr

instance : Inhabited Image := ⟨⟨0, 0, []⟩⟩

/-- `gif::DisposalMethod`, restricted to the two variants the core emits. -/
inductive DisposalMethod where
  | Keep
  | Background
deriving DecidableEq, Repr

/-- The error variants of `error.rs` that the embedded functions can raise. -/
inductive Error where
  | NoFrames
  | WrongSize
  | Aborted
deriving DecidableEq, Repr

/-- `Repeat`: looping metadata (passed through to the encoder, never read by
the embedded functions). -/
inductive Repeat where
  | Finite (n : Nat)
  | Infinite
deriving DecidableEq, Repr

/-- `Settings`.  The `repeat` field of the source is called `looping` here
because `repeat` is a Lean keyword. -/
structure Settings where
  width : Option Nat
  height : Option Nat
  quality : Nat
  fast : Bool
  looping : Repeat

/-- `Settings::color_quality`: `(self.quality as u16 * 4 / 3).min(100)`.
`quality` is a `u8`, so `quality * 4 ≤ 1020` fits in `u16` and plain `Nat`
arithmetic agrees with the source. -/
def Settings.color_quality (s : Settings) : Nat :=
  min (s.quality * 4 / 3) 100

/-- `colordiff` (lib.rs, bottom): perceptual difference of two pixels.  Each
squared channel difference is computed in `i32` (promoted from `i16`) and cast
to `u32`; channel values are at most 255, so each square is at most
`255 * 255` and the weighted sum is at most `255 * 255 * 6 < 2^31`, hence no
cast truncates and `Int.toNat` of the (nonnegative) squares models the `as
u32` casts exactly. -/
def colordiff (a b : RGBA) : Nat :=
  if a.a = 0 ∨ b.a = 0 then 255 * 255 * 6
  else
    (((a.r : Int) - (b.r : Int)) * ((a.r : Int) - (b.r : Int))).toNat * 2 +
    (((a.g : Int) - (b.g : Int)) * ((a.g : Int) - (b.g : Int))).toNat * 3 +
    (((a.b : Int) - (b.b : Int)) * ((a.b : Int) - (b.b : Int))).toNat

/-- `dimensions_for_image`: the resize-target computation of lib.rs.  All
divisions are Rust `usize` (truncating) divisions, which agree with `Nat`
division. -/
def dimensions_for_image : Nat × Nat → Option Nat × Option Nat → Nat × Nat
  | (img_w, img_h), (none, none) =>
      let factor := (img_w * img_h + 800 * 600) / (800 * 600)
      if factor > 1 then (img_w / factor, img_h / factor)
      else (img_w, img_h)
  | (img_w, img_h), (some w, some h) => (min w img_w, min h img_h)
  | (img_w, img_h), (some w, none) =>
      let w' := min w img_w
      (w', img_h * w' / img_w)
  | (img_w, img_h), (none, some h) =>
      let h' := min h img_h
      (img_w * h' / img_h, h')

/-- Ceiling division on `Nat`, used to state the spec's `⌈(w·h + 800·600) /
(800·600)⌉`. -/
def ceilDiv (a b : Nat) : Nat := (a + b - 1) / b

/-- Round-half-up division on `Nat`, used to state the spec's
`round(h·w'/w)`. -/
def roundDiv (a b : Nat) : Nat := (2 * a + b) / (2 * b)

/-- The resize table exactly as the claim states it (spec §4.2): written from
the spec's words, to be compared against `dimensions_for_image`.  With no
maxima the size is unchanged when `w·h ≤ 800·600` and otherwise both axes are
divided by `⌈(w·h + 800·600)/(800·600)⌉`; with one maximum the free axis is
`round`ed. -/
def dimensions_spec_claimed : Nat × Nat → Option Nat × Option Nat → Nat × Nat
  | (w, h), (none, none) =>
      if w * h ≤ 800 * 600 then (w, h)
      else
        let c := ceilDiv (w * h + 800 * 600) (800 * 600)
        (w / c, h / c)
  | (w, h), (some mw, some mh) => (min mw w, min mh h)
  | (w, h), (some mw, none) =>
      let w' := min mw w
      (w', roundDiv (h * w') w)
  | (w, h), (none, some mh) =>
      let h' := min mh h
      (roundDiv (w * h') h, h')

/-- The resize table as the code behaves (the amended claim): with no
maxima the size is unchanged when `w·h < 800·600` and otherwise both axes are
divided by `w·h/(800·600) + 1` (truncating division); with one maximum the
free axis is scaled with truncating division. -/
def dimensions_spec_amended : Nat × Nat → Option Nat × Option Nat → Nat × Nat
  | (w, h), (none, none) =>
      if w * h < 800 * 600 then (w, h)
      else
        let c := w * h / (800 * 600) + 1
        (w / c, h / c)
  | (w, h), (some mw, some mh) => (min mw w, min mh h)
  | (w, h), (some mw, none) =>
      let w' := min mw w
      (w', h * w' / w)
  | (w, h), (none, some mh) =>
      let h' := min mh h
      (w * h' / h, h')

/-- Rust's `slice::chunks_exact(w)`: the complete length-`w` chunks of a list
(a trailing remainder of fewer than `w` elements is not produced).  Written in
closed form: chunk `k` is the `w` elements starting at offset `k·w`. -/
def chunksExact {α : Type} (w : Nat) (l : List α) : List (List α) :=
  (List.range (l.length / w)).map fun k => (l.drop (k * w)).take w

/-- `imgref`'s `rows()`: the row decomposition of an image's pixel buffer.
For a well-formed image (`data.length = width * height`) this yields exactly
`height` rows of `width` pixels each. -/
def Image.rows (img : Image) : List (List RGBA) :=
  chunksExact img.width img.data

/-- The `DITHER` matrix of `Collector::resized_binary_alpha`, written exactly
as the source writes its 64 constants. -/
def DITHER : List Nat :=
  [ 0*2+8,48*2+8,12*2+8,60*2+8, 3*2+8,51*2+8,15*2+8,63*2+8,
   32*2+8,16*2+8,44*2+8,28*2+8,35*2+8,19*2+8,47*2+8,31*2+8,
    8*2+8,56*2+8, 4*2+8,52*2+8,11*2+8,59*2+8, 7*2+8,55*2+8,
   40*2+8,24*2+8,36*2+8,20*2+8,43*2+8,27*2+8,39*2+8,23*2+8,
    2*2+8,50*2+8,14*2+8,62*2+8, 1*2+8,49*2+8,13*2+8,61*2+8,
   34*2+8,18*2+8,46*2+8,30*2+8,33*2+8,17*2+8,45*2+8,29*2+8,
   10*2+8,58*2+8, 6*2+8,54*2+8, 9*2+8,57*2+8, 5*2+8,53*2+8,
   42*2+8,26*2+8,38*2+8,22*2+8,41*2+8,25*2+8,37*2+8,21*2+8]

/-- The per-pixel body of the binarization loop of
`Collector::resized_binary_alpha`: a pixel with `a < 255` has its alpha
snapped to 0 or 255 by the ordered-dither threshold; `(y & 7)` and `(x & 7)`
are written `% 8` (equal on `Nat`). -/
def binarize_px (y x : Nat) (px : RGBA) : RGBA :=
  if px.a < 255 then
    { px with a := if px.a < DITHER.getD ((y % 8) * 8 + (x % 8)) 0 then 0 else 255 }
  else px

/-- The alpha-binarization pass of `Collector::resized_binary_alpha` on the
pixel buffer (the `for (y, row) in image.rows_mut().enumerate()` loop).  The
in-place row mutation is modelled by mapping each row with its row index and
reassembling the buffer; elements beyond the last complete row (none, for a
well-formed image) are left untouched. -/
def binarize_data (w : Nat) (data : List RGBA) : List RGBA :=
  let rows' := (chunksExact w data).enum.map fun yr =>
    yr.2.enum.map fun xp => binarize_px yr.1 xp.1 xp.2
  rows'.flatten ++ data.drop (data.length / w * w)

/-- The alpha-binarization pass of `Collector::resized_binary_alpha` as an
image-to-image function (resizing happens before this pass and is
external). -/
def binary_alpha (image : Image) : Image :=
  { image with data := binarize_data image.width image.data }

/-- The per-pixel importance computed by `Writer::make_diffs` when a next
frame exists: `255 - (colordiff(n, curr) / (255 * 255 * 6 / 170)) as u8`.
The `as u8` truncation is the explicit `% 256`. -/
def diff_importance (n curr : RGBA) : Nat :=
  255 - colordiff n curr / (255 * 255 * 6 / 170) % 256

/-- The importance map built by `Writer::make_diffs` for a frame with a look-
ahead `next`: `next.rows().zip(image.rows())`, flattened pixel-wise. -/
def importance_map_for (next image : Image) : List Nat :=
  ((next.rows.zip image.rows).map fun rr =>
    (rr.1.zip rr.2).map fun nc => diff_importance nc.1 nc.2).flatten

/-- The disposal decision taken inside the same traversal of
`Writer::make_diffs`: `dispose` becomes `Background` as soon as some pixel
satisfies `n.a < curr.a` (the source sets it as a side effect of building the
importance map; the resulting value is this existence check). -/
def dispose_for (next image : Image) : Bool :=
  (next.rows.zip image.rows).any fun rr =>
    (rr.1.zip rr.2).any fun nc => nc.1.a < nc.2.a

/-- `DiffMessage`: a frame between the diff and quantize stages. -/
structure DiffMessage where
  ordinal_frame_number : Nat
  end_pts : Rat
  dispose : DisposalMethod
  image : Image
  importance_map : List Nat
deriving DecidableEq, Repr

/-- The `while let` loop of `Writer::make_diffs`, processing `curr` with
look-ahead `rest.head?` and carrying `prev_frame_pts` and the running ordinal
counter.  Mirrors the source exactly: the ordinal is incremented *before* the
identical-frame check, so a skipped frame still consumes an ordinal. -/
def make_diffs_loop (first_frame_pts : Rat) (first_frame_has_transparency : Bool) :
    Image × Rat → List (Image × Rat) → Rat → Nat → Except Error (List DiffMessage)
  | (image, pts0), (next, next_pts0) :: rest, _prev_frame_pts, ordinal =>
    -- `prev_frame_pts` is dead on this path: both continuations pass the rebased `pts`
    let pts := pts0 - first_frame_pts
    let ordinal_frame_number := ordinal + 1
    if next.width ≠ image.width ∨ next.height ≠ image.height then
      .error .WrongSize
    else if next = image then
      -- Skip identical frames: `prev_frame_pts = pts; continue`
      make_diffs_loop first_frame_pts first_frame_has_transparency
        (next, next_pts0) rest pts ordinal_frame_number
    else
      let dispose :=
        if dispose_for next image then DisposalMethod.Background else .Keep
      let importance_map := importance_map_for next image
      let end_pts := next_pts0 - first_frame_pts
      do
        let msgs ← make_diffs_loop first_frame_pts first_frame_has_transparency
          (next, next_pts0) rest pts ordinal_frame_number
        pure ({ ordinal_frame_number, end_pts, dispose, image, importance_map } :: msgs)
  | (image, pts0), [], prev_frame_pts, ordinal =>
    let pts := pts0 - first_frame_pts
    let ordinal_frame_number := ordinal + 1
    -- Last frame: reset to background only if the first frame had transparency
    let dispose :=
      if first_frame_has_transparency then DisposalMethod.Background else .Keep
    let importance_map := List.replicate (image.width * image.height) 255
    let end_pts :=
      if first_frame_pts > 1 / 100 then pts + first_frame_pts
      else pts + (pts - prev_frame_pts)
    .ok [{ ordinal_frame_number, end_pts, dispose, image, importance_map }]

/-- `Writer::make_diffs`: pulls the first frame (error `NoFrames` if there is
none), computes `first_frame_has_transparency`, and runs the loop with
`prev_frame_pts = 0.0` and the ordinal counter at 0. -/
def make_diffs : List (Image × Rat) → Except Error (List DiffMessage)
  | [] => .error .NoFrames
  | (first_frame, first_frame_pts) :: rest =>
    let first_frame_has_transparency := first_frame.data.any fun px => px.a < 128
    make_diffs_loop first_frame_pts first_frame_has_transparency
      (first_frame, first_frame_pts) rest 0 0

/-- The per-pixel body of the importance-attenuation closure in
`Writer::quantize_frames`.  `t * t` is at most `12192²`, which fits in `u32`;
after `.min(256)` the product with an importance value (≤ 255) is at most
`65280`, which fits in `u16`, and the quotient by 256 is at most 255, so the
final `as u8` cast never truncates and is omitted. -/
def attenuate_px (min_diff : Nat) (bg px : RGBA) (imp : Nat) : Nat :=
  let diff := colordiff bg px
  if diff < min_diff then 0
  else
    let t := diff / 32
    min (t * t) 256 * imp / 256

/-- One row of the attenuation pass:
`imp.iter_mut().zip(bg.iter().zip(px.iter()))` mutates pixel-wise up to the
shortest of the three rows; the remaining importance entries are untouched. -/
def attenuate_row (min_diff : Nat) : List RGBA → List RGBA → List Nat → List Nat
  | b :: bs, p :: ps, i :: is => attenuate_px min_diff b p i :: attenuate_row min_diff bs ps is
  | _, _, is => is

/-- The row traversal of the attenuation pass:
`importance_map.chunks_exact_mut(width).zip(prev.rows().zip(image.rows()))`
mutates row-wise up to the shortest of the three sequences; remaining chunks
are untouched. -/
def attenuate_chunks (min_diff : Nat) :
    List (List Nat) → List (List RGBA) → List (List RGBA) → List (List Nat)
  | c :: cs, b :: bs, p :: ps =>
      attenuate_row min_diff b p c :: attenuate_chunks min_diff cs bs ps
  | cs, _, _ => cs

/-- The importance-attenuation pass of `Writer::quantize_frames`, executed
when a previous frame was retained: `q = 100 - color_quality`,
`min_diff = 80 + q·q`, then the row-wise in-place rewrite.  The in-place
buffer is reassembled from the (possibly partially) processed chunks plus the
remainder that `chunks_exact_mut` never yields. -/
def attenuate_importance (s : Settings) (prev_frame image : Image)
    (importance_map : List Nat) : List Nat :=
  let q := 100 - s.color_quality
  let min_diff := 80 + q * q
  let processed := attenuate_chunks min_diff
    (chunksExact image.width importance_map) prev_frame.rows image.rows
  processed.flatten ++
    importance_map.drop (importance_map.length / image.width * image.width)

/-- The palette transparency consolidation loop of `Writer::remap_frames`
(`for (i, p) in image8_pal.iter_mut().enumerate()`): every entry with
`a ≤ 128` gets `a := 0`; the first such index is recorded as
`transparent_index`, and pixels referencing any later such index are rewritten
to it.  Pixel values are the `u8` palette indices of `image8`. -/
def consolidate_loop :
    Nat → List RGBA → List Nat → Option Nat → List RGBA × List Nat × Option Nat
  | _, [], pixels, transparent_index => ([], pixels, transparent_index)
  | i, p :: rest, pixels, transparent_index =>
    if p.a ≤ 128 then
      match transparent_index with
      | some old_index =>
          let pixels' := pixels.map fun px => if px = i then old_index else px
          let r := consolidate_loop (i + 1) rest pixels' (some old_index)
          (⟨p.r, p.g, p.b, 0⟩ :: r.1, r.2)
      | none =>
          let r := consolidate_loop (i + 1) rest pixels (some i)
          (⟨p.r, p.g, p.b, 0⟩ :: r.1, r.2)
    else
      let r := consolidate_loop (i + 1) rest pixels transparent_index
      (p :: r.1, r.2)

/-- Entry point of the consolidation: the scan starts at index 0 with no
transparent index recorded.  Returns the rewritten palette, the rewritten
pixel buffer, and `transparent_index`. -/
def consolidate_transparency (pal : List RGBA) (pixels : List Nat) :
    List RGBA × List Nat × Option Nat :=
  consolidate_loop 0 pal pixels none

/-- A frame as it reaches `Writer::write_frames`.  The writer never inspects
the `GIFFrame` payload, so it is modelled as an opaque `Nat` handle. -/
structure FrameMessage where
  ordinal_frame_number : Nat
  end_pts : Rat
  frame : Nat
deriving DecidableEq, Repr

/-- `(end_pts * 100.0).round() as u64` of `Writer::write_frames`.  Rust's
`f64::round` rounds half away from zero; for the nonnegative range this is
`round` (half up), and every negative result is clamped to 0 by the `as u64`
cast, which `Int.toNat` performs. -/
def target_delay_units (end_pts : Rat) : Nat :=
  (round (end_pts * 100)).toNat

/-- The `while n_done < ordinal_frame_number` progress loop of
`Writer::write_frames`, which runs `ord - n_done` times; `reporter n` models
`reporter.increase()` at the point where `n_done` has just become `n`, and a
`false` return aborts. -/
def advance_progress_go (reporter : Nat → Bool) : Nat → Nat → Option Nat
  | 0, n_done => some n_done
  | k + 1, n_done =>
      if reporter (n_done + 1) then advance_progress_go reporter k (n_done + 1) else none

/-- Runs the progress loop from `n_done` up to `ord`. -/
def advance_progress (reporter : Nat → Bool) (n_done ord : Nat) : Option Nat :=
  advance_progress_go reporter (ord - n_done) n_done

/-- `Writer::write_frames`: for each frame, `delay = ((end_pts * 100).round()
as u64).saturating_sub(pts_in_delay_units).min(30000)` (the saturating `u64`
subtraction is `Nat` subtraction; the result is ≤ 30000 so the `as u16` cast
never truncates), the accumulator grows by `delay`, the encoder is invoked
only when `delay ≠ 0`, and the progress loop then catches `n_done` up to the
frame's ordinal.  Returns the list of `(frame, delay)` encoder calls and the
final `n_done`. -/
def write_frames (reporter : Nat → Bool) :
    List FrameMessage → Nat → Nat → Except Error (List (Nat × Nat) × Nat)
  | [], _, n_done => .ok ([], n_done)  -- `enc.finish()` writes no frame
  | m :: rest, pts_in_delay_units, n_done =>
    let delay := min (target_delay_units m.end_pts - pts_in_delay_units) 30000
    let pts' := pts_in_delay_units + delay
    match advance_progress reporter n_done m.ordinal_frame_number with
    | none => .error .Aborted
    | some n_done' => do
        let r ← write_frames reporter rest pts' n_done'
        pure ((if delay ≠ 0 then [(m.frame, delay)] else []) ++ r.1, r.2)

/-- The delay recurrence exactly as the claim states it (spec §4.6): written
from the spec's words, to be compared against `write_frames`.
`delay = min(30000, saturating_sub(round(end_pts·100), accumulated))` and the
accumulator then grows by the delay. -/
def writer_spec_delays : List Rat → Nat → List Nat
  | [], _ => []
  | e :: rest, accumulated =>
    let d := min 30000 (target_delay_units e - accumulated)
    d :: writer_spec_delays rest (accumulated + d)

/-- Proof helper: what the consolidation loop does to one palette entry. -/
def clear_alpha (p : RGBA) : RGBA :=
  if p.a ≤ 128 then ⟨p.r, p.g, p.b, 0⟩ else p

/-- Proof helper: the total pixel rewrite performed by the consolidation loop
once a transparent index `f` is fixed — any pixel referencing an entry of the
palette segment `pal` (whose first entry has global index `i`) with `a ≤ 128`
ends up referencing `f`. -/
def rewrite_to (i : Nat) (pal : List RGBA) (f : Nat) (v : Nat) : Nat :=
  if i ≤ v ∧ (pal.getD (v - i) ⟨0, 0, 0, 255⟩).a ≤ 128 then f else v

/-- Proof helper: the global index of the first palette entry with `a ≤ 128`
in the segment `pal` starting at global index `i`. -/
def first_transparent : Nat → List RGBA → Option Nat
  | _, [] => none
  | i, p :: rest => if p.a ≤ 128 then some i else first_transparent (i + 1) rest

/-- The three-way `end_pts` rule exactly as the claim states it, for the frame
at 0-based position `j` of the input list `L` (`fp` is the first frame's pts,
`prev` the `prev_frame_pts` value in force when `L` starts): if a next frame
exists, `end_pts = next.pts − fp`; otherwise, if `fp > 0.01`,
`end_pts = rebased + fp`; otherwise `end_pts = rebased + (rebased − prev)`,
where `prev` is the previous input frame's rebased pts. -/
def end_pts_spec (fp prev : Rat) (L : List (Image × Rat)) (j : Nat) : Rat :=
  if j + 1 < L.length then (L.getD (j + 1) default).2 - fp
  else if fp > 1 / 100 then ((L.getD j default).2 - fp) + fp
  else ((L.getD j default).2 - fp) +
    (((L.getD j default).2 - fp) -
      (if j = 0 then prev else (L.getD (j - 1) default).2 - fp))

/-! ## C7 — `colordiff` computes the weighted squared channel difference -/

/-- C7: for 8-bit pixels `a` and `b`, `colordiff` returns the sentinel
`255·255·6` when either alpha is 0, and otherwise the exact value
`2·(r_a−r_b)² + 3·(g_a−g_b)² + (b_a−b_b)²` of signed integer arithmetic; the
intermediates stay below `2³¹`, so the `i32` computation of the source never
overflows. -/
theorem colordiff_weighted_squares (a b : RGBA) (ha : a.Valid) (hb : b.Valid) :
    (a.a = 0 ∨ b.a = 0 → colordiff a b = 255 * 255 * 6) ∧
    (a.a ≠ 0 → b.a ≠ 0 →
      (colordiff a b : Int) =
        2 * ((a.r : Int) - b.r) ^ 2 + 3 * ((a.g : Int) - b.g) ^ 2 +
          ((a.b : Int) - b.b) ^ 2) ∧
    colordiff a b < 2 ^ 31 := by
  obtain ⟨har, hag, hab, haa⟩ := ha
  obtain ⟨hbr, hbg, hbb, hba⟩ := hb
  refine ⟨fun h => by simp [colordiff, h], fun h1 h2 => ?_, ?_⟩
  · have hor : ¬(a.a = 0 ∨ b.a = 0) := by tauto
    simp only [colordiff, if_neg hor]
    push_cast [Int.toNat_of_nonneg (mul_self_nonneg _)]
    ring
  · have hsq : ∀ x y : Nat, x ≤ 255 → y ≤ 255 →
        (((x : Int) - y) * ((x : Int) - y)).toNat ≤ 255 * 255 := by
      intro x y hx hy
      rw [Int.toNat_le]
      push_cast
      have hx' : (x : Int) ≤ 255 := by exact_mod_cast hx
      have hy' : (y : Int) ≤ 255 := by exact_mod_cast hy
      have hx0 : (0 : Int) ≤ x := Int.natCast_nonneg x
      have hy0 : (0 : Int) ≤ y := Int.natCast_nonneg y
      nlinarith
    unfold colordiff
    split
    · norm_num
    · have h1 := hsq a.r b.r har hbr
      have h2 := hsq a.g b.g hag hbg
      have h3 := hsq a.b b.b hab hbb
      omega

/-- Concrete instantiation of `colordiff_weighted_squares`. -/
theorem colordiff_weighted_squares_witness :
    (⟨255, 10, 0, 200⟩ : RGBA).Valid ∧ (⟨0, 0, 0, 255⟩ : RGBA).Valid ∧
    (((⟨255, 10, 0, 200⟩ : RGBA).a = 0 ∨ (⟨0, 0, 0, 255⟩ : RGBA).a = 0 →
        colordiff ⟨255, 10, 0, 200⟩ ⟨0, 0, 0, 255⟩ = 255 * 255 * 6) ∧
      ((⟨255, 10, 0, 200⟩ : RGBA).a ≠ 0 → (⟨0, 0, 0, 255⟩ : RGBA).a ≠ 0 →
        (colordiff ⟨255, 10, 0, 200⟩ ⟨0, 0, 0, 255⟩ : Int) =
          2 * ((255 : Int) - 0) ^ 2 + 3 * ((10 : Int) - 0) ^ 2 +
            ((0 : Int) - 0) ^ 2) ∧
      colordiff ⟨255, 10, 0, 200⟩ ⟨0, 0, 0, 255⟩ < 2 ^ 31) :=
  ⟨by decide, by decide,
    colordiff_weighted_squares ⟨255, 10, 0, 200⟩ ⟨0, 0, 0, 255⟩ (by decide) (by decide)⟩

/-! ## C3 — the resize table -/

/-- C3 counterexample: the code divides `(800, 600)` (where `w·h = 800·600`)
by 2 although the spec's table leaves it unchanged, and with only `max_w`
given it floors `h·w'/w` where the table rounds. -/
theorem dimensions_for_image_ne_spec_table :
    dimensions_for_image (800, 600) (none, none) = (400, 300) ∧
    dimensions_spec_claimed (800, 600) (none, none) = (800, 600) ∧
    dimensions_for_image (2, 3) (some 1, none) = (1, 1) ∧
    dimensions_spec_claimed (2, 3) (some 1, none) = (1, 2) :=
  ⟨rfl, rfl, rfl, rfl⟩

/-- C3 amended: `dimensions_for_image` realizes the corrected table — with no
maxima the size is unchanged exactly when `w·h < 800·600` and otherwise both
axes are divided by the truncating `w·h/(800·600) + 1`; with one maximum the
free axis is scaled with truncating (not rounding) division; with both maxima
the result is `(min(W,w), min(H,h))`. -/
theorem dimensions_for_image_eq_amended_table :
    ∀ s r, dimensions_for_image s r = dimensions_spec_amended s r := by
  rintro ⟨w, h⟩ ⟨mw | mw, mh | mh⟩
  · dsimp only [dimensions_for_image, dimensions_spec_amended]
    rw [Nat.add_div_right _ (by norm_num : 0 < 800 * 600)]
    by_cases hc : w * h < 800 * 600
    · rw [Nat.div_eq_of_lt hc, if_pos hc, if_neg (by omega)]
    · have h1 : 1 ≤ w * h / (800 * 600) :=
        (Nat.one_le_div_iff (by norm_num)).mpr (le_of_not_lt hc)
      rw [if_neg hc, if_pos (by omega)]
  · rfl
  · rfl
  · rfl

/-! ## C10 — the diff stage's importance map lies in `[85, 255]` -/

theorem toNat_sq_diff_le {x y : Nat} (hx : x ≤ 255) (hy : y ≤ 255) :
    (((x : Int) - y) * ((x : Int) - y)).toNat ≤ 255 * 255 := by
  rw [Int.toNat_le]
  push_cast
  have hx' : (x : Int) ≤ 255 := by exact_mod_cast hx
  have hy' : (y : Int) ≤ 255 := by exact_mod_cast hy
  have hx0 : (0 : Int) ≤ x := Int.natCast_nonneg x
  have hy0 : (0 : Int) ≤ y := Int.natCast_nonneg y
  nlinarith

/-- `colordiff` is bounded by its own sentinel value `255·255·6`. -/
theorem colordiff_le (a b : RGBA) (ha : a.Valid) (hb : b.Valid) :
    colordiff a b ≤ 255 * 255 * 6 := by
  obtain ⟨har, hag, hab, _⟩ := ha
  obtain ⟨hbr, hbg, hbb, _⟩ := hb
  unfold colordiff
  split
  · exact le_refl _
  · have h1 := toNat_sq_diff_le har hbr
    have h2 := toNat_sq_diff_le hag hbg
    have h3 := toNat_sq_diff_le hab hbb
    omega

/-- Per-pixel bound: the quotient fed to the `u8` cast never exceeds 170, so
the diff importance stays in `[85, 255]`. -/
theorem diff_importance_bounds (n curr : RGBA) (hn : n.Valid) (hc : curr.Valid) :
    85 ≤ diff_importance n curr ∧ diff_importance n curr ≤ 255 := by
  have hle := colordiff_le n curr hn hc
  have hdiv : colordiff n curr / (255 * 255 * 6 / 170) ≤ 170 := by
    have : (255 * 255 * 6 / 170 : Nat) = 2295 := by norm_num
    rw [this]
    calc colordiff n curr / 2295 ≤ 255 * 255 * 6 / 2295 := Nat.div_le_div_right hle
    _ = 170 := by norm_num
  unfold diff_importance
  omega

theorem mem_of_mem_chunksExact {α : Type} {w : Nat} {l : List α} {r : List α}
    (hr : r ∈ chunksExact w l) {x : α} (hx : x ∈ r) : x ∈ l := by
  unfold chunksExact at hr
  obtain ⟨k, _, rfl⟩ := List.mem_map.mp hr
  exact List.mem_of_mem_drop (List.mem_of_mem_take hx)

/-- C10: for any pair of valid frames, every entry of the importance map the
diff stage builds from a frame and its look-ahead lies in `[85, 255]`:
`colordiff` is bounded by `255·255·6` and the divisor is
`255·255·6/170 = 2295`, so the subtracted quotient never exceeds 170 and the
diff stage alone never produces importance 0. -/
theorem importance_map_for_bounds (next image : Image)
    (hn : ∀ px ∈ next.data, px.Valid) (hc : ∀ px ∈ image.data, px.Valid) :
    ∀ v ∈ importance_map_for next image, 85 ≤ v ∧ v ≤ 255 := by
  intro v hv
  unfold importance_map_for at hv
  obtain ⟨row, hrow, hvrow⟩ := List.mem_flatten.mp hv
  obtain ⟨rr, hrr, rfl⟩ := List.mem_map.mp hrow
  obtain ⟨nc, hnc, rfl⟩ := List.mem_map.mp hvrow
  obtain ⟨hr1, hr2⟩ := List.of_mem_zip hrr
  obtain ⟨h1, h2⟩ := List.of_mem_zip hnc
  exact diff_importance_bounds nc.1 nc.2
    (hn nc.1 (mem_of_mem_chunksExact hr1 h1))
    (hc nc.2 (mem_of_mem_chunksExact hr2 h2))

/-- Concrete instantiation of `importance_map_for_bounds`. -/
theorem importance_map_for_bounds_witness :
    85 ≤ (importance_map_for ⟨1, 1, [⟨0, 0, 0, 255⟩]⟩ ⟨1, 1, [⟨9, 0, 0, 255⟩]⟩).getD 0 0 ∧
    (importance_map_for ⟨1, 1, [⟨0, 0, 0, 255⟩]⟩ ⟨1, 1, [⟨9, 0, 0, 255⟩]⟩).getD 0 0 ≤ 255 :=
  importance_map_for_bounds ⟨1, 1, [⟨0, 0, 0, 255⟩]⟩ ⟨1, 1, [⟨9, 0, 0, 255⟩]⟩
    (by decide) (by decide) _ (by decide)

/-! ## C9 — the alpha binarization is idempotent -/

theorem length_of_mem_chunksExact {α : Type} {w : Nat} {l : List α} (h0 : 0 < w)
    {r : List α} (hr : r ∈ chunksExact w l) : r.length = w := by
  unfold chunksExact at hr
  obtain ⟨k, hk, rfl⟩ := List.mem_map.mp hr
  rw [List.mem_range] at hk
  have h1 : (k + 1) * w ≤ l.length / w * w :=
    Nat.mul_le_mul_right w (by omega)
  have h2 : l.length / w * w ≤ l.length := Nat.div_mul_le_self _ _
  have h3 : (k + 1) * w = k * w + w := Nat.succ_mul k w
  simp only [List.length_take, List.length_drop]
  omega

theorem flatten_length_of_const {α : Type} {w : Nat} :
    ∀ {L : List (List α)}, (∀ r ∈ L, r.length = w) → L.flatten.length = w * L.length
  | [], _ => by simp
  | r :: L, h => by
    have hr := h r (List.mem_cons_self r L)
    have hL := flatten_length_of_const fun s hs => h s (List.mem_cons_of_mem r hs)
    simp only [List.flatten_cons, List.length_append, List.length_cons, hr, hL,
      Nat.mul_succ]
    omega

theorem drop_flatten_of_const {α : Type} {w : Nat} :
    ∀ (k : Nat) (L : List (List α)) (rem : List α), k ≤ L.length →
      (∀ r ∈ L, r.length = w) →
      (L.flatten ++ rem).drop (k * w) = (L.drop k).flatten ++ rem
  | 0, L, rem, _, _ => by simp
  | k + 1, [], rem, hk, _ => by simp at hk
  | k + 1, r :: L, rem, hk, h => by
    have hr := h r (List.mem_cons_self r L)
    have step : (k + 1) * w = r.length + k * w := by rw [hr]; ring
    rw [List.flatten_cons, List.append_assoc, step, List.drop_append]
    exact drop_flatten_of_const k L rem (by simpa using hk)
      fun s hs => h s (List.mem_cons_of_mem r hs)

theorem chunksExact_flatten_append {α : Type} {w : Nat} (h0 : 0 < w)
    (L : List (List α)) (rem : List α) (hL : ∀ r ∈ L, r.length = w)
    (hrem : rem.length < w) : chunksExact w (L.flatten ++ rem) = L := by
  unfold chunksExact
  have hlen : (L.flatten ++ rem).length = w * L.length + rem.length := by
    rw [List.length_append, flatten_length_of_const hL]
  have hq : (L.flatten ++ rem).length / w = L.length := by
    rw [hlen, Nat.mul_add_div h0, Nat.div_eq_of_lt hrem]
    omega
  rw [hq]

  refine List.ext_getElem (by simp) fun k h1 h2 => ?_
  simp only [List.getElem_map, List.getElem_range]
  have hk : k < L.length := by simpa using h2
  have hLk : (L.get ⟨k, hk⟩).length = w := hL _ (List.getElem_mem hk)
  rw [drop_flatten_of_const k L rem (le_of_lt hk) hL,
    List.drop_eq_getElem_cons hk, List.flatten_cons, List.append_assoc]
  exact List.take_left' hLk

theorem binarize_px_idem (y x : Nat) (p : RGBA) :
    binarize_px y x (binarize_px y x p) = binarize_px y x p := by
  have hD : 0 < DITHER.getD (y % 8 * 8 + x % 8) 0 := by
    have h1 : y % 8 * 8 + x % 8 < 64 := by omega
    have h64 : ∀ i, i < 64 → 0 < DITHER.getD i 0 := by decide
    exact h64 _ h1
  obtain ⟨r, g, b, a⟩ := p
  unfold binarize_px
  by_cases h : a < 255
  · rw [if_pos h]
    by_cases h2 : a < DITHER.getD (y % 8 * 8 + x % 8) 0
    · rw [if_pos h2]
      show (if (0 : Nat) < 255 then _ else _) = _
      rw [if_pos (by norm_num : (0 : Nat) < 255), if_pos hD]
    · rw [if_neg h2]
      show (if (255 : Nat) < 255 then _ else _) = _
      rw [if_neg (lt_irrefl 255)]
  · rw [if_neg h, if_neg h]

/-- Mapping an index-dependent idempotent function over an enumerated list is
idempotent (the second pass sees each element at the same index). -/
theorem enumFrom_map_idem {α : Type} (f : Nat → α → α)
    (hf : ∀ n a, f n (f n a) = f n a) :
    ∀ (n : Nat) (l : List α),
      (((l.enumFrom n).map fun p => f p.1 p.2).enumFrom n).map (fun p => f p.1 p.2) =
        (l.enumFrom n).map fun p => f p.1 p.2
  | _, [] => rfl
  | n, a :: l => by
    simp only [List.enumFrom, List.map_cons]
    rw [hf n a]
    exact congrArg _ (enumFrom_map_idem f hf (n + 1) l)

theorem binarize_data_idem (w : Nat) (d : List RGBA) :
    binarize_data w (binarize_data w d) = binarize_data w d := by
  by_cases h0 : w = 0
  · subst h0
    unfold binarize_data chunksExact
    simp
  · have hpos : 0 < w := Nat.pos_of_ne_zero h0
    have hlenC : ∀ r ∈ chunksExact w d, r.length = w :=
      fun r hr => length_of_mem_chunksExact hpos hr
    have hlenP : ∀ r ∈ (chunksExact w d).enum.map
        (fun yr => yr.2.enum.map fun xp => binarize_px yr.1 xp.1 xp.2),
        r.length = w := by
      intro r hr
      obtain ⟨yr, hyr, rfl⟩ := List.mem_map.mp hr
      simp only [List.length_map, List.enum_length]
      exact hlenC yr.2 (List.snd_mem_of_mem_enum hyr)
    have hrem : (d.drop (d.length / w * w)).length < w := by
      have hmc : d.length / w * w = w * (d.length / w) := Nat.mul_comm _ _
      have hdm := Nat.div_add_mod d.length w
      have hml : d.length % w < w := Nat.mod_lt d.length hpos
      simp only [List.length_drop]
      omega
    have hchunks2 : chunksExact w (binarize_data w d) =
        (chunksExact w d).enum.map
          (fun yr => yr.2.enum.map fun xp => binarize_px yr.1 xp.1 xp.2) := by
      unfold binarize_data
      exact chunksExact_flatten_append hpos _ _ hlenP hrem
    have hflatlen : ((chunksExact w d).enum.map
        (fun yr => yr.2.enum.map fun xp => binarize_px yr.1 xp.1 xp.2)).flatten.length =
        w * ((chunksExact w d).enum.map
          (fun yr => yr.2.enum.map fun xp => binarize_px yr.1 xp.1 xp.2)).length :=
      flatten_length_of_const hlenP
    have hlen2 : (binarize_data w d).length / w = ((chunksExact w d).enum.map
        (fun yr => yr.2.enum.map fun xp => binarize_px yr.1 xp.1 xp.2)).length := by
      unfold binarize_data
      rw [List.length_append, hflatlen, Nat.mul_add_div hpos,
        Nat.div_eq_of_lt hrem]
      omega
    have hdrop2 : (binarize_data w d).drop ((binarize_data w d).length / w * w) =
        d.drop (d.length / w * w) := by
      rw [hlen2]
      conv_lhs => rw [show binarize_data w d = ((chunksExact w d).enum.map
        (fun yr => yr.2.enum.map fun xp => binarize_px yr.1 xp.1 xp.2)).flatten ++
          d.drop (d.length / w * w) from rfl]
      rw [drop_flatten_of_const _ _ _ (le_refl _) hlenP, List.drop_length]
      rfl
    have hPP : (((chunksExact w d).enum.map
        (fun yr => yr.2.enum.map fun xp => binarize_px yr.1 xp.1 xp.2)).enum.map
          fun yr => yr.2.enum.map fun xp => binarize_px yr.1 xp.1 xp.2) =
        (chunksExact w d).enum.map
          (fun yr => yr.2.enum.map fun xp => binarize_px yr.1 xp.1 xp.2) := by
      have hrow : ∀ (y : Nat) (row : List RGBA),
          (((row.enumFrom 0).map fun p => binarize_px y p.1 p.2).enumFrom 0).map
            (fun p => binarize_px y p.1 p.2) =
            (row.enumFrom 0).map fun p => binarize_px y p.1 p.2 :=
        fun y => enumFrom_map_idem (fun x px => binarize_px y x px)
          (fun x px => binarize_px_idem y x px) 0
      exact enumFrom_map_idem
        (fun y row => row.enum.map fun xp => binarize_px y xp.1 xp.2)
        (fun y row => hrow y row) 0 (chunksExact w d)
    conv_lhs => rw [show binarize_data w (binarize_data w d) =
      ((chunksExact w (binarize_data w d)).enum.map
        (fun yr => yr.2.enum.map fun xp => binarize_px yr.1 xp.1 xp.2)).flatten ++
        (binarize_data w d).drop ((binarize_data w d).length / w * w) from rfl]
    rw [hchunks2, hdrop2, hPP]
    rfl

/-- C9: the alpha binarization pass (snap `a < 255` pixels to 0 or 255 by the
ordered-dither threshold, leave `a = 255` pixels untouched) is idempotent:
applying it twice to any image yields the same pixels as applying it once. -/
theorem binary_alpha_idempotent (image : Image) :
    binary_alpha (binary_alpha image) = binary_alpha image := by
  unfold binary_alpha
  simp only
  exact congrArg _ (binarize_data_idem image.width image.data)

/-! ## C1 — palette transparency consolidation -/

theorem rewrite_to_cons_of_ne {p : RGBA} {rest : List RGBA} {i f v : Nat}
    (hv : v ≠ i) : rewrite_to i (p :: rest) f v = rewrite_to (i + 1) rest f v := by
  unfold rewrite_to
  rcases Nat.lt_or_ge v i with hlt | hge
  · rw [if_neg (by omega), if_neg (by omega)]
  · have hgt : i < v := by omega
    have hvi : v - i = v - (i + 1) + 1 := by omega
    rw [hvi, List.getD_cons_succ]
    exact if_congr (by constructor <;> (rintro ⟨h1, h2⟩; exact ⟨by omega, h2⟩)) rfl rfl

theorem rewrite_to_cons_notrans {p : RGBA} {rest : List RGBA} {i f : Nat}
    (hp : ¬p.a ≤ 128) (v : Nat) :
    rewrite_to i (p :: rest) f v = rewrite_to (i + 1) rest f v := by
  by_cases hv : v = i
  · subst hv
    unfold rewrite_to
    rw [if_neg fun hcon => hp (by simpa using hcon.2),
      if_neg fun hcon => absurd hcon.1 (by omega)]
  · exact rewrite_to_cons_of_ne hv

theorem rewrite_to_cons_head {p : RGBA} {rest : List RGBA} {i f : Nat}
    (hp : p.a ≤ 128) : rewrite_to i (p :: rest) f i = f := by
  unfold rewrite_to
  rw [if_pos ⟨le_refl i, by simpa using hp⟩]

/-- The consolidation loop rewrites the palette pointwise: every entry with
`a ≤ 128` has its alpha cleared to 0, all others are untouched. -/
theorem consolidate_loop_pal :
    ∀ (pal : List RGBA) (i : Nat) (px : List Nat) (ti : Option Nat),
      (consolidate_loop i pal px ti).1 = pal.map clear_alpha
  | [], _, _, _ => rfl
  | p :: rest, i, px, ti => by
    by_cases hp : p.a ≤ 128
    · rcases ti with _ | f <;>
        simp [consolidate_loop, hp, clear_alpha, consolidate_loop_pal rest]
    · simp [consolidate_loop, hp, clear_alpha, consolidate_loop_pal rest]

/-- Once a transparent index `f` is recorded, the rest of the loop maps the
pixel buffer through `rewrite_to` and leaves the index unchanged. -/
theorem consolidate_loop_some :
    ∀ (pal : List RGBA) (i : Nat) (px : List Nat) (f : Nat),
      (consolidate_loop i pal px (some f)).2.1 = px.map (rewrite_to i pal f) ∧
      (consolidate_loop i pal px (some f)).2.2 = some f
  | [], i, px, f => by
    refine ⟨?_, rfl⟩
    have hpt : ∀ v, rewrite_to i ([] : List RGBA) f v = v := by
      intro v
      unfold rewrite_to
      rw [if_neg (by simp)]
    simp [consolidate_loop, List.map_congr_left fun v _ => hpt v]
  | p :: rest, i, px, f => by
    by_cases hp : p.a ≤ 128
    · have ih := consolidate_loop_some rest (i + 1)
        (px.map fun v => if v = i then f else v) f
      refine ⟨?_, by simp [consolidate_loop, hp, ih.2]⟩
      have hpt : ∀ v, rewrite_to (i + 1) rest f (if v = i then f else v) =
          rewrite_to i (p :: rest) f v := by
        intro v
        by_cases hv : v = i
        · subst hv
          rw [if_pos rfl, rewrite_to_cons_head hp]
          unfold rewrite_to
          exact ite_self f
        · rw [if_neg hv, rewrite_to_cons_of_ne hv]
      simp only [consolidate_loop, if_pos hp, ih.1, List.map_map]
      exact List.map_congr_left fun v _ => hpt v
    · have ih := consolidate_loop_some rest (i + 1) px f
      refine ⟨?_, by simp [consolidate_loop, hp, ih.2]⟩
      simp only [consolidate_loop, if_neg hp, ih.1]
      exact List.map_congr_left fun v _ => (rewrite_to_cons_notrans hp v).symm

/-- Starting with no transparent index, the loop records the first entry with
`a ≤ 128` (if any) and rewrites every pixel that references a transparent
entry to it. -/
theorem consolidate_loop_none :
    ∀ (pal : List RGBA) (i : Nat) (px : List Nat),
      (consolidate_loop i pal px none).2.2 = first_transparent i pal ∧
      (consolidate_loop i pal px none).2.1 =
        (match first_transparent i pal with
          | none => px
          | some k => px.map (rewrite_to i pal k))
  | [], _, _ => ⟨rfl, rfl⟩
  | p :: rest, i, px => by
    by_cases hp : p.a ≤ 128
    · have hsome := consolidate_loop_some rest (i + 1) px i
      refine ⟨by simp [consolidate_loop, hp, first_transparent, hsome.2], ?_⟩
      simp only [consolidate_loop, if_pos hp, hsome.1, first_transparent]
      refine (List.map_congr_left fun v _ => ?_).symm
      by_cases hv : v = i
      · subst hv
        rw [rewrite_to_cons_head hp]
        unfold rewrite_to
        exact (ite_self _).symm
      · exact rewrite_to_cons_of_ne hv
    · have ih := consolidate_loop_none rest (i + 1) px
      refine ⟨by simp [consolidate_loop, hp, first_transparent, ih.1], ?_⟩
      simp only [consolidate_loop, if_neg hp, ih.2, first_transparent]
      rcases first_transparent (i + 1) rest with _ | k
      · rfl
      · exact List.map_congr_left fun v _ => (rewrite_to_cons_notrans hp v).symm

/-- If no entry of the segment is transparent, every entry has `a > 128`. -/
theorem first_transparent_none :
    ∀ (pal : List RGBA) (i : Nat), first_transparent i pal = none →
      ∀ j, j < pal.length → 128 < (pal.getD j ⟨0, 0, 0, 255⟩).a
  | [], _, _, j, hj => by simp at hj
  | p :: rest, i, h, j, hj => by
    unfold first_transparent at h
    by_cases hp : p.a ≤ 128
    · rw [if_pos hp] at h
      exact absurd h (by simp)
    · rw [if_neg hp] at h
      match j with
      | 0 => simpa using by omega
      | j + 1 =>
        rw [List.getD_cons_succ]
        exact first_transparent_none rest (i + 1) h j (by simpa using hj)

/-- C1 counterexample: a palette with two entries of alpha ≤ 128 keeps *two*
alpha-0 entries after consolidation — the loop zeroes the alpha of every such
entry and only redirects pixel references, so "at most one entry with alpha
0" is false. -/
theorem consolidate_transparency_two_zero_entries :
    (consolidate_transparency [⟨1, 2, 3, 100⟩, ⟨4, 5, 6, 50⟩] [0, 1]).1 =
      [⟨1, 2, 3, 0⟩, ⟨4, 5, 6, 0⟩] ∧
    ¬((consolidate_transparency [⟨1, 2, 3, 100⟩, ⟨4, 5, 6, 50⟩] [0, 1]).1.countP
        (fun p => p.a == 0) ≤ 1) := by
  constructor
  · rfl
  · decide

/-- C1 amended: after consolidation every palette entry has alpha 0 or alpha
> 128 (entries in `(0, 128]` are cleared to 0 — multiple alpha-0 entries may
remain), and every pixel that references an alpha-0 entry references the
recorded `transparent_index`. -/
theorem consolidate_transparency_amended (pal : List RGBA) (pixels : List Nat) :
    (∀ p ∈ (consolidate_transparency pal pixels).1, p.a = 0 ∨ 128 < p.a) ∧
    (∀ v ∈ (consolidate_transparency pal pixels).2.1,
      ((consolidate_transparency pal pixels).1.getD v ⟨0, 0, 0, 255⟩).a = 0 →
        (consolidate_transparency pal pixels).2.2 = some v) := by
  unfold consolidate_transparency
  have hpal : (consolidate_loop 0 pal pixels none).1 = pal.map clear_alpha :=
    consolidate_loop_pal pal 0 pixels none
  have hnone := consolidate_loop_none pal 0 pixels
  constructor
  · intro p hp
    rw [hpal] at hp
    obtain ⟨q, _, rfl⟩ := List.mem_map.mp hp
    unfold clear_alpha
    by_cases hq : q.a ≤ 128
    · rw [if_pos hq]
      left
      rfl
    · rw [if_neg hq]
      right
      omega
  · intro v hv ha
    rw [hpal] at ha
    by_cases hv' : v < pal.length
    · have hgd : (pal.map clear_alpha).getD v ⟨0, 0, 0, 255⟩ =
          clear_alpha (pal.getD v ⟨0, 0, 0, 255⟩) := by
        rw [List.getD_eq_getElem _ _ (by rw [List.length_map]; exact hv'),
          List.getElem_map, List.getD_eq_getElem _ _ hv']
      rw [hgd] at ha
      have horig : (pal.getD v ⟨0, 0, 0, 255⟩).a ≤ 128 := by
        unfold clear_alpha at ha
        by_cases hq : (pal.getD v ⟨0, 0, 0, 255⟩).a ≤ 128
        · exact hq
        · rw [if_neg hq] at ha
          omega
      rcases hft : first_transparent 0 pal with _ | k
      · exact absurd horig
          (by have := first_transparent_none pal 0 hft v hv'; omega)
      · rw [hnone.1, hft]
        rw [hnone.2, hft] at hv
        obtain ⟨u, _, rfl⟩ := List.mem_map.mp hv
        by_cases hu : 0 ≤ u ∧ (pal.getD (u - 0) ⟨0, 0, 0, 255⟩).a ≤ 128
        · unfold rewrite_to
          rw [if_pos hu]
        · have heq : rewrite_to 0 pal k u = u := by
            unfold rewrite_to
            rw [if_neg hu]
          rw [heq] at horig
          exact absurd ⟨Nat.zero_le u, by simpa using horig⟩ hu
    · rw [List.getD_eq_default _ _ (by rw [List.length_map]; omega)] at ha
      exact absurd ha (by norm_num)

/-- Concrete instantiation of `consolidate_transparency_amended`: in the
palette `[(0,0,0,0", (9,9,9,10), (1,1,1,255)]` with pixels `[1, 2]`, entry 1
is cleared to alpha 0 and still satisfies the amended invariant. -/
theorem consolidate_transparency_amended_witness :
    ((consolidate_transparency [⟨0, 0, 0, 0⟩, ⟨9, 9, 9, 10⟩, ⟨1, 1, 1, 255⟩]
        [1, 2]).1.getD 1 ⟨0, 0, 0, 255⟩).a = 0 ∨
      128 < ((consolidate_transparency [⟨0, 0, 0, 0⟩, ⟨9, 9, 9, 10⟩, ⟨1, 1, 1, 255⟩]
        [1, 2]).1.getD 1 ⟨0, 0, 0, 255⟩).a :=
  (consolidate_transparency_amended [⟨0, 0, 0, 0⟩, ⟨9, 9, 9, 10⟩, ⟨1, 1, 1, 255⟩]
    [1, 2]).1 _ (by decide)

/-! ## C2 — ordinals across the diff stage -/

/-- Every message emitted by the diff-stage loop has an ordinal above the
incoming counter and at most `counter + number of frames left`, and the
emitted ordinals are strictly increasing. -/
theorem make_diffs_loop_ordinals (fp : Rat) (ft : Bool) :
    ∀ (rest : List (Image × Rat)) (curr : Image × Rat) (prev : Rat) (ord : Nat)
      (msgs : List DiffMessage),
      make_diffs_loop fp ft curr rest prev ord = .ok msgs →
      (∀ m ∈ msgs, ord < m.ordinal_frame_number ∧
        m.ordinal_frame_number ≤ ord + (curr :: rest).length) ∧
      List.Chain' (· < ·) (msgs.map (·.ordinal_frame_number))
  | [], (image, pts0), prev, ord, msgs, h => by
    simp only [make_diffs_loop, Except.ok.injEq] at h
    subst h
    refine ⟨fun m hm => ?_, by simp⟩
    rw [List.mem_singleton] at hm
    subst hm
    exact ⟨Nat.lt_succ_self ord, Nat.le_refl _⟩
  | (next, npts0) :: rest, (image, pts0), prev, ord, msgs, h => by
    simp only [make_diffs_loop] at h
    split at h
    · exact absurd h (by simp)
    · split at h
      · -- identical frames: the ordinal is consumed and the frame skipped
        have ih := make_diffs_loop_ordinals fp ft rest (next, npts0) _ _ _ h
        refine ⟨fun m hm => ?_, ih.2⟩
        have hb := ih.1 m hm
        simp only [List.length_cons] at hb ⊢
        omega
      · cases hrec : make_diffs_loop fp ft (next, npts0) rest (pts0 - fp) (ord + 1) with
        | error e =>
          rw [hrec] at h
          simp [Bind.bind, Except.bind] at h
        | ok msgs' =>
          rw [hrec] at h
          simp only [Bind.bind, Except.bind, pure, Except.pure, Except.ok.injEq] at h
          subst h
          have ih := make_diffs_loop_ordinals fp ft rest (next, npts0) _ _ _ hrec
          constructor
          · intro m hm
            rcases List.mem_cons.mp hm with rfl | hm'
            · exact ⟨Nat.lt_succ_self ord,
                by show ord + 1 ≤ ord + (rest.length + 1 + 1); omega⟩
            · have hb := ih.1 m hm'
              simp only [List.length_cons] at hb ⊢
              omega
          · rw [List.map_cons, List.chain'_cons']
            refine ⟨fun b hb => ?_, ih.2⟩
            obtain ⟨m, hm, rfl⟩ := List.mem_map.mp (List.mem_of_mem_head? hb)
            exact (ih.1 m hm).1

/-- C2 counterexample: two pixel-identical frames followed by a distinct one.
The first frame is skipped by dedup but its ordinal is consumed (the source
increments `ordinal_frame_number` *before* the identical-frame check), so the
surviving frames carry ordinals `[2, 3]` — not contiguous from 1. -/
theorem make_diffs_skipped_frame_consumes_ordinal :
    (make_diffs [(⟨1, 1, [⟨0, 0, 0, 255⟩]⟩, 0), (⟨1, 1, [⟨0, 0, 0, 255⟩]⟩, 1),
        (⟨1, 1, [⟨9, 0, 0, 255⟩]⟩, 2)]).toOption.map
      (fun msgs => msgs.map (fun m => m.ordinal_frame_number)) = some [2, 3] ∧
    ([2, 3] : List Nat).head? ≠ some 1 := by
  constructor
  · simp only [make_diffs, make_diffs_loop]
    norm_num
    exact ⟨_, rfl, rfl⟩
  · decide

/-- C2 amended: the diff stage assigns an ordinal to *every* input frame
(including frames skipped as duplicates), so the ordinals of surviving frames
are strictly increasing and bounded by the number of input frames, but are
not necessarily contiguous and need not start at 1. -/
theorem make_diffs_ordinals_amended (inputs : List (Image × Rat))
    (msgs : List DiffMessage) (h : make_diffs inputs = .ok msgs) :
    List.Chain' (· < ·) (msgs.map (·.ordinal_frame_number)) ∧
    ∀ m ∈ msgs, 1 ≤ m.ordinal_frame_number ∧
      m.ordinal_frame_number ≤ inputs.length := by
  cases inputs with
  | nil => simp [make_diffs] at h
  | cons first rest =>
    obtain ⟨f, fpts⟩ := first
    simp only [make_diffs] at h
    have haux := make_diffs_loop_ordinals fpts (f.data.any fun px => decide (px.a < 128))
      rest (f, fpts) 0 0 msgs h
    refine ⟨haux.2, fun m hm => ⟨(haux.1 m hm).1, ?_⟩⟩
    have := (haux.1 m hm).2
    simpa using this

/-- Concrete instantiation of `make_diffs_ordinals_amended` on a two-frame
input: the emitted ordinals `[1, 2]` are strictly increasing. -/
theorem make_diffs_ordinals_amended_witness :
    List.Chain' (· < ·)
      (([⟨1, 1,
            if dispose_for ⟨1, 1, [⟨9, 0, 0, 255⟩]⟩ ⟨1, 1, [⟨0, 0, 0, 255⟩]⟩ then
              DisposalMethod.Background else DisposalMethod.Keep,
            ⟨1, 1, [⟨0, 0, 0, 255⟩]⟩,
            importance_map_for ⟨1, 1, [⟨9, 0, 0, 255⟩]⟩ ⟨1, 1, [⟨0, 0, 0, 255⟩]⟩⟩,
          ⟨2, 2, DisposalMethod.Keep, ⟨1, 1, [⟨9, 0, 0, 255⟩]⟩,
            List.replicate (1 * 1) 255⟩] : List DiffMessage).map
        (·.ordinal_frame_number)) := by
  have h : make_diffs [(⟨1, 1, [⟨0, 0, 0, 255⟩]⟩, 0), (⟨1, 1, [⟨9, 0, 0, 255⟩]⟩, 1)] =
      .ok [⟨1, 1,
            if dispose_for ⟨1, 1, [⟨9, 0, 0, 255⟩]⟩ ⟨1, 1, [⟨0, 0, 0, 255⟩]⟩ then
              DisposalMethod.Background else DisposalMethod.Keep,
            ⟨1, 1, [⟨0, 0, 0, 255⟩]⟩,
            importance_map_for ⟨1, 1, [⟨9, 0, 0, 255⟩]⟩ ⟨1, 1, [⟨0, 0, 0, 255⟩]⟩⟩,
          ⟨2, 2, DisposalMethod.Keep, ⟨1, 1, [⟨9, 0, 0, 255⟩]⟩,
            List.replicate (1 * 1) 255⟩] := by
    simp only [make_diffs, make_diffs_loop]
    norm_num
  exact (make_diffs_ordinals_amended _ _ h).1

/-! ## C4 — the three-way `end_pts` rule -/

/-- Shifting the `end_pts` rule under a cons: position `j` of `L` with the
previous frame's rebased pts in `prev_frame_pts` is position `j + 1` of
`curr :: L`. -/
theorem end_pts_spec_cons (fp prev : Rat) (curr : Image × Rat)
    (L : List (Image × Rat)) (j : Nat) :
    end_pts_spec fp (curr.2 - fp) L j = end_pts_spec fp prev (curr :: L) (j + 1) := by
  unfold end_pts_spec
  by_cases h1 : j + 1 < L.length
  · rw [if_pos h1,
      if_pos (show j + 1 + 1 < (curr :: L).length by
        simp only [List.length_cons]; omega),
      List.getD_cons_succ]
  · rw [if_neg h1,
      if_neg (show ¬j + 1 + 1 < (curr :: L).length by
        simp only [List.length_cons]; omega)]
    by_cases h2 : fp > 1 / 100
    · rw [if_pos h2, if_pos h2, List.getD_cons_succ]
    · rw [if_neg h2, if_neg h2, List.getD_cons_succ]
      rcases j with _ | j0
      · rw [if_pos rfl, if_neg (by omega), List.getD_cons_zero]
      · rw [if_neg (by omega), if_neg (by omega)]
        simp only [Nat.add_sub_cancel]
        rw [List.getD_cons_succ]

/-- Every message emitted by the diff-stage loop originates from position `j`
of the remaining input (carrying ordinal `counter + 1 + j`), and its
`end_pts` satisfies the three-way rule at that position. -/
theorem make_diffs_loop_end_pts (fp : Rat) (ft : Bool) :
    ∀ (rest : List (Image × Rat)) (curr : Image × Rat) (prev : Rat) (ord : Nat)
      (msgs : List DiffMessage),
      make_diffs_loop fp ft curr rest prev ord = .ok msgs →
      ∀ m ∈ msgs, ∃ j : Nat, j < (curr :: rest).length ∧
        m.ordinal_frame_number = ord + 1 + j ∧
        m.end_pts = end_pts_spec fp prev (curr :: rest) j
  | [], (image, pts0), prev, ord, msgs, h => by
    simp only [make_diffs_loop, Except.ok.injEq] at h
    subst h
    intro m hm
    rw [List.mem_singleton] at hm
    subst hm
    refine ⟨0, by simp, rfl, ?_⟩
    simp [end_pts_spec]
  | (next, npts0) :: rest, (image, pts0), prev, ord, msgs, h => by
    simp only [make_diffs_loop] at h
    split at h
    · exact absurd h (by simp)
    · split at h
      · intro m hm
        obtain ⟨j, hj, ho, he⟩ :=
          make_diffs_loop_end_pts fp ft rest (next, npts0) _ _ _ h m hm
        refine ⟨j + 1, by simp only [List.length_cons] at hj ⊢; omega, by omega, ?_⟩
        rw [he]
        exact end_pts_spec_cons fp prev (image, pts0) _ j
      · cases hrec : make_diffs_loop fp ft (next, npts0) rest (pts0 - fp) (ord + 1) with
        | error e =>
          rw [hrec] at h
          simp [Bind.bind, Except.bind] at h
        | ok msgs' =>
          rw [hrec] at h
          simp only [Bind.bind, Except.bind, pure, Except.pure, Except.ok.injEq] at h
          subst h
          intro m hm
          rcases List.mem_cons.mp hm with rfl | hm'
          · refine ⟨0, by simp, rfl, ?_⟩
            simp [end_pts_spec]
          · obtain ⟨j, hj, ho, he⟩ :=
              make_diffs_loop_end_pts fp ft rest (next, npts0) _ _ _ hrec m hm'
            refine ⟨j + 1, by simp only [List.length_cons] at hj ⊢; omega,
              by omega, ?_⟩
            rw [he]
            exact end_pts_spec_cons fp prev (image, pts0) _ j

/-- C4: every frame emitted by the diff stage carries an `end_pts` computed
by exactly the three-way rule — the message from 0-based input position `j`
(ordinal `j + 1`) has `end_pts = input[j+1].pts − first_frame_pts` when a
next frame exists, else `rebased + first_frame_pts` when
`first_frame_pts > 0.01`, else `rebased + (rebased − prev_frame_pts)` with
`prev_frame_pts` the previous input's rebased pts (0 for a lone frame). -/
theorem make_diffs_end_pts_rule (inputs : List (Image × Rat))
    (msgs : List DiffMessage) (h : make_diffs inputs = .ok msgs) :
    ∀ m ∈ msgs, ∃ j : Nat, j < inputs.length ∧
      m.ordinal_frame_number = j + 1 ∧
      m.end_pts = end_pts_spec ((inputs.getD 0 default).2) 0 inputs j := by
  cases inputs with
  | nil => simp [make_diffs] at h
  | cons first rest =>
    obtain ⟨f, fpts⟩ := first
    simp only [make_diffs] at h
    intro m hm
    obtain ⟨j, hj, ho, he⟩ :=
      make_diffs_loop_end_pts fpts (f.data.any fun px => decide (px.a < 128))
        rest (f, fpts) 0 0 msgs h m hm
    exact ⟨j, by simpa using hj, by omega, by simpa using he⟩

/-- Concrete instantiation of `make_diffs_end_pts_rule`: on the two-frame
input with pts 0 and 1, the last frame's `end_pts` is 2, as the steady-
cadence branch of the rule dictates. -/
theorem make_diffs_end_pts_rule_witness :
    (2 : Rat) = end_pts_spec 0 0
      [(⟨1, 1, [⟨0, 0, 0, 255⟩]⟩, 0), (⟨1, 1, [⟨9, 0, 0, 255⟩]⟩, 1)] 1 := by
  have h : make_diffs [(⟨1, 1, [⟨0, 0, 0, 255⟩]⟩, 0), (⟨1, 1, [⟨9, 0, 0, 255⟩]⟩, 1)] =
      .ok [⟨1, 1,
            if dispose_for ⟨1, 1, [⟨9, 0, 0, 255⟩]⟩ ⟨1, 1, [⟨0, 0, 0, 255⟩]⟩ then
              DisposalMethod.Background else DisposalMethod.Keep,
            ⟨1, 1, [⟨0, 0, 0, 255⟩]⟩,
            importance_map_for ⟨1, 1, [⟨9, 0, 0, 255⟩]⟩ ⟨1, 1, [⟨0, 0, 0, 255⟩]⟩⟩,
          ⟨2, 2, DisposalMethod.Keep, ⟨1, 1, [⟨9, 0, 0, 255⟩]⟩,
            List.replicate (1 * 1) 255⟩] := by
    simp only [make_diffs, make_diffs_loop]
    norm_num
  obtain ⟨j, hj, ho, he⟩ := make_diffs_end_pts_rule _ _ h
    ⟨2, 2, DisposalMethod.Keep, ⟨1, 1, [⟨9, 0, 0, 255⟩]⟩, List.replicate (1 * 1) 255⟩
    (by simp)
  have hj1 : j = 1 := by
    have ho' : (2 : Nat) = j + 1 := ho
    omega
  subst hj1
  exact he

/-! ## C5 — the writer's delay computation, zero-delay skip and progress -/

theorem advance_progress_go_true :
    ∀ (k n : Nat), advance_progress_go (fun _ => true) k n = some (n + k)
  | 0, n => rfl
  | k + 1, n => by
    rw [advance_progress_go, if_pos rfl, advance_progress_go_true k (n + 1)]
    congr 1
    omega

/-- With a reporter that never aborts, the progress loop moves `n_done` up to
`max n_done ordinal`. -/
theorem advance_progress_true (n ord : Nat) :
    advance_progress (fun _ => true) n ord = some (max n ord) := by
  rw [advance_progress, advance_progress_go_true]
  congr 1
  omega

/-- C5 (generalized over the running accumulator and progress counter):
`write_frames` with a non-aborting reporter produces exactly the encoder
calls predicted by the claim's recurrence — the delay of each frame is
`min(30000, saturating_sub(round(end_pts·100), accumulated))`, the
accumulator grows by that delay, frames whose delay is 0 are dropped from
the encoder calls, and the progress counter still advances to every frame's
ordinal. -/
theorem write_frames_true_eq :
    ∀ (msgs : List FrameMessage) (acc n : Nat),
      write_frames (fun _ => true) msgs acc n = .ok
        ((msgs.zip (writer_spec_delays (msgs.map (·.end_pts)) acc)).filterMap
            fun md => if md.2 ≠ 0 then some (md.1.frame, md.2) else none,
          msgs.foldl (fun k m => max k m.ordinal_frame_number) n)
  | [], acc, n => rfl
  | m :: rest, acc, n => by
    have hrec := write_frames_true_eq rest
      (acc + min (target_delay_units m.end_pts - acc) 30000) (max n m.ordinal_frame_number)
    simp only [write_frames, advance_progress_true, hrec, Bind.bind, Except.bind,
      pure, Except.pure, Except.ok.injEq]
    simp only [List.map_cons, writer_spec_delays, List.zip_cons_cons,
      List.filterMap_cons, List.foldl_cons]
    rw [Nat.min_comm 30000 (target_delay_units m.end_pts - acc)]
    by_cases hd : min (target_delay_units m.end_pts - acc) 30000 = 0
    · simp [hd]
    · simp [hd]

/-! ## C6 — delays passed to the sink -/

/-- Every `(frame, delay)` pair actually passed to the encoder has a strictly
positive delay of at most 30000. -/
theorem write_frames_calls_bounds :
    ∀ (reporter : Nat → Bool) (msgs : List FrameMessage) (acc n : Nat)
      (calls : List (Nat × Nat)) (nf : Nat),
      write_frames reporter msgs acc n = .ok (calls, nf) →
      ∀ c ∈ calls, 0 < c.2 ∧ c.2 ≤ 30000
  | _, [], _, _, _, _, h => by
    simp only [write_frames, Except.ok.injEq, Prod.mk.injEq] at h
    rw [← h.1]
    intro c hc
    simp at hc
  | reporter, m :: rest, acc, n, calls, nf, h => by
    cases hadv : advance_progress reporter n m.ordinal_frame_number with
    | none =>
      simp only [write_frames, hadv] at h
      exact absurd h (by simp)
    | some n' =>
      cases hrec : write_frames reporter rest
          (acc + min (target_delay_units m.end_pts - acc) 30000) n' with
      | error e =>
        simp only [write_frames, hadv, hrec, Bind.bind, Except.bind] at h
        exact absurd h (by simp)
      | ok r =>
        simp only [write_frames, hadv, hrec, Bind.bind, Except.bind, pure, Except.pure,
          Except.ok.injEq, Prod.mk.injEq] at h
        obtain ⟨hcalls, hnf⟩ := h
        subst hcalls
        intro c hc
        rcases List.mem_append.mp hc with hc1 | hc2
        · by_cases hz : min (target_delay_units m.end_pts - acc) 30000 ≠ 0
          · rw [if_pos hz] at hc1
            rw [List.mem_singleton] at hc1
            subst hc1
            exact ⟨by omega, Nat.min_le_right _ _⟩
          · rw [if_neg hz] at hc1
            simp at hc1
        · exact write_frames_calls_bounds reporter rest _ n' r.1 r.2
            (by rw [hrec]) c hc2

theorem getLastD_congr {α : Type} :
    ∀ (l : List α), l ≠ [] → ∀ (d1 d2 : α), l.getLastD d1 = l.getLastD d2
  | [], h, _, _ => absurd rfl h
  | a :: l, _, d1, d2 => by
    rw [List.getLastD_cons, List.getLastD_cons]

/-- If the rounded delay targets are nondecreasing and the accumulator starts
at or below the first target, the accumulator (= the sum of all delays plus
its initial value) never exceeds the last target. -/
theorem write_frames_sum_le :
    ∀ (reporter : Nat → Bool) (msgs : List FrameMessage) (acc n : Nat)
      (calls : List (Nat × Nat)) (nf : Nat),
      write_frames reporter msgs acc n = .ok (calls, nf) →
      List.Chain' (· ≤ ·) (msgs.map fun m => target_delay_units m.end_pts) →
      (∀ t ∈ (msgs.map fun m => target_delay_units m.end_pts).head?, acc ≤ t) →
      (calls.map (·.2)).sum + acc ≤
        (msgs.map fun m => target_delay_units m.end_pts).getLastD acc
  | _, [], _, _, _, _, h, _, _ => by
    simp only [write_frames, Except.ok.injEq, Prod.mk.injEq] at h
    rw [← h.1]
    simp
  | reporter, m :: rest, acc, n, calls, nf, h, hchain, hhead => by
    cases hadv : advance_progress reporter n m.ordinal_frame_number with
    | none =>
      simp only [write_frames, hadv] at h
      exact absurd h (by simp)
    | some n' =>
      cases hrec : write_frames reporter rest
          (acc + min (target_delay_units m.end_pts - acc) 30000) n' with
      | error e =>
        simp only [write_frames, hadv, hrec, Bind.bind, Except.bind] at h
        exact absurd h (by simp)
      | ok r =>
        simp only [write_frames, hadv, hrec, Bind.bind, Except.bind, pure, Except.pure,
          Except.ok.injEq, Prod.mk.injEq] at h
        obtain ⟨hcalls, hnf⟩ := h
        subst hcalls
        have hacc1 : acc ≤ target_delay_units m.end_pts :=
          hhead (target_delay_units m.end_pts) (by simp)
        have hmin1 : min (target_delay_units m.end_pts - acc) 30000 ≤
            target_delay_units m.end_pts - acc := Nat.min_le_left _ _
        have hsum : (((if min (target_delay_units m.end_pts - acc) 30000 ≠ 0 then
            [(m.frame, min (target_delay_units m.end_pts - acc) 30000)] else []) ++
              r.1).map (·.2)).sum =
            min (target_delay_units m.end_pts - acc) 30000 + (r.1.map (·.2)).sum := by
          by_cases hz : min (target_delay_units m.end_pts - acc) 30000 ≠ 0
          · rw [if_pos hz]
            simp
          · rw [if_neg hz]
            simp only [ne_eq, Decidable.not_not] at hz
            simp [hz]
        rcases rest with _ | ⟨m2, rest'⟩
        · simp only [write_frames, Except.ok.injEq] at hrec
          rw [hsum, ← hrec]
          simp only [List.map_nil, List.sum_nil, List.map_cons, List.getLastD_cons,
            List.getLastD_nil]
          omega
        · have hch := hchain
          rw [List.map_cons, List.map_cons, List.chain'_cons] at hch
          have ih := write_frames_sum_le reporter (m2 :: rest')
            (acc + min (target_delay_units m.end_pts - acc) 30000) n' r.1 r.2
            (by rw [hrec])
            (by
              rw [List.map_cons]
              exact hch.2)
            (by
              intro t ht
              simp only [List.map_cons, List.head?_cons, Option.mem_def,
                Option.some.injEq] at ht
              subst ht
              omega)
          rw [hsum]
          have hlast : ((m :: m2 :: rest').map fun x => target_delay_units x.end_pts).getLastD
              acc = ((m2 :: rest').map fun x => target_delay_units x.end_pts).getLastD
              (acc + min (target_delay_units m.end_pts - acc) 30000) := by
            rw [List.map_cons, List.getLastD_cons]
            exact getLastD_congr _ (by simp) _ _
          rw [hlast]
          omega

/-- C6 counterexample: two frames whose end_pts go 2 then 1.  The first frame
is emitted with delay 200; the second saturates to delay 0 and is skipped, so
the sum of delays passed to the sink is 200, which exceeds
`round(last_end_pts · 100) = 100`. -/
theorem write_frames_sum_exceeds_last :
    write_frames (fun _ => true) [⟨1, 2, 10⟩, ⟨2, 1, 20⟩] 0 0 =
      .ok ([(10, 200)], 2) ∧
    ¬((([(10, 200)] : List (Nat × Nat)).map (·.2)).sum ≤ target_delay_units 1) := by
  constructor
  · simp [write_frames, advance_progress, advance_progress_go, target_delay_units]
    norm_num
    decide
  · simp [target_delay_units]

/-- C6 amended: in a completed run, every delay passed to the encoder sink is
strictly positive and at most 30000; and *when the rounded end_pts targets
are nondecreasing along the frame sequence* (true whenever input timestamps
increase), the sum of the delays passed to the sink is at most
`round(last_end_pts · 100)`.  Without that monotonicity the sum bound fails
(see the counterexample). -/
theorem write_frames_delays_amended (reporter : Nat → Bool)
    (msgs : List FrameMessage) (calls : List (Nat × Nat)) (nf : Nat)
    (h : write_frames reporter msgs 0 0 = .ok (calls, nf)) :
    (∀ c ∈ calls, 0 < c.2 ∧ c.2 ≤ 30000) ∧
    (List.Chain' (· ≤ ·) (msgs.map fun m => target_delay_units m.end_pts) →
      (calls.map (·.2)).sum ≤
        (msgs.map fun m => target_delay_units m.end_pts).getLastD 0) := by
  refine ⟨write_frames_calls_bounds reporter msgs 0 0 calls nf h, fun hchain => ?_⟩
  have := write_frames_sum_le reporter msgs 0 0 calls nf h hchain
    (fun t _ => Nat.zero_le t)
  omega

/-- Concrete instantiation of `write_frames_delays_amended` on two monotone
frames (end_pts 1 then 2): the sink receives delays `[100, 100]`, summing to
200 = `round(2 · 100)`. -/
theorem write_frames_delays_amended_witness :
    (([(5, 100), (6, 100)] : List (Nat × Nat)).map (·.2)).sum ≤
      (([⟨1, 1, 5⟩, ⟨2, 2, 6⟩] : List FrameMessage).map
        fun m => target_delay_units m.end_pts).getLastD 0 := by
  have h : write_frames (fun _ => true) [⟨1, 1, 5⟩, ⟨2, 2, 6⟩] 0 0 =
      .ok ([(5, 100), (6, 100)], 2) := by
    simp [write_frames, advance_progress, advance_progress_go, target_delay_units]
    norm_num
    decide
  refine (write_frames_delays_amended (fun _ => true) _ _ _ h).2 ?_
  simp [target_delay_units]
  norm_num

/-! ## C8 — the quantize stage's importance attenuation -/

theorem attenuate_row_length (md : Nat) :
    ∀ (bg px : List RGBA) (imp : List Nat),
      (attenuate_row md bg px imp).length = imp.length
  | b :: bs, p :: ps, i :: is => by
    simp only [attenuate_row, List.length_cons, attenuate_row_length md bs ps is]
  | [], _, _ => by simp [attenuate_row]
  | _ :: _, [], _ => by simp [attenuate_row]
  | _ :: _, _ :: _, [] => by simp [attenuate_row]

theorem attenuate_row_getD (md : Nat) :
    ∀ (bg px : List RGBA) (imp : List Nat) (j : Nat),
      j < bg.length → j < px.length → j < imp.length →
      (attenuate_row md bg px imp).getD j 0 =
        attenuate_px md (bg.getD j ⟨0, 0, 0, 0⟩) (px.getD j ⟨0, 0, 0, 0⟩)
          (imp.getD j 0)
  | b :: bs, p :: ps, i :: is, 0, _, _, _ => rfl
  | b :: bs, p :: ps, i :: is, j + 1, h1, h2, h3 => by
    simp only [attenuate_row, List.getD_cons_succ]
    exact attenuate_row_getD md bs ps is j (by simpa using h1) (by simpa using h2)
      (by simpa using h3)
  | [], _, _, j, h1, _, _ => absurd h1 (by simp)
  | _ :: _, [], _, j, _, h2, _ => absurd h2 (by simp)
  | _ :: _, _ :: _, [], j, _, _, h3 => absurd h3 (by simp)

theorem attenuate_chunks_getD (md : Nat) :
    ∀ (cs : List (List Nat)) (bs ps : List (List RGBA)) (k : Nat),
      k < cs.length → k < bs.length → k < ps.length →
      (attenuate_chunks md cs bs ps).getD k [] =
        attenuate_row md (bs.getD k []) (ps.getD k []) (cs.getD k [])
  | c :: cs, b :: bs, p :: ps, 0, _, _, _ => rfl
  | c :: cs, b :: bs, p :: ps, k + 1, h1, h2, h3 => by
    simp only [attenuate_chunks, List.getD_cons_succ]
    exact attenuate_chunks_getD md cs bs ps k (by simpa using h1) (by simpa using h2)
      (by simpa using h3)
  | [], _, _, k, h1, _, _ => absurd h1 (by simp)
  | _ :: _, [], _, k, _, h2, _ => absurd h2 (by simp)
  | _ :: _, _ :: _, [], k, _, _, h3 => absurd h3 (by simp)

theorem attenuate_chunks_length (md : Nat) :
    ∀ (cs : List (List Nat)) (bs ps : List (List RGBA)),
      (attenuate_chunks md cs bs ps).length = cs.length
  | c :: cs, b :: bs, p :: ps => by
    simp only [attenuate_chunks, List.length_cons, attenuate_chunks_length md cs bs ps]
  | [], _, _ => by simp [attenuate_chunks]
  | _ :: _, [], _ => by simp [attenuate_chunks]
  | _ :: _, _ :: _, [] => by simp [attenuate_chunks]

/-- Every row produced by the attenuation traversal has the length of a row
of the importance chunks it was built from. -/
theorem mem_attenuate_chunks_length (md : Nat) {w : Nat} :
    ∀ (cs : List (List Nat)) (bs ps : List (List RGBA)),
      (∀ c ∈ cs, c.length = w) →
      ∀ r ∈ attenuate_chunks md cs bs ps, r.length = w
  | c :: cs, b :: bs, p :: ps, hc, r, hr => by
    simp only [attenuate_chunks] at hr
    rcases List.mem_cons.mp hr with rfl | hr'
    · rw [attenuate_row_length]
      exact hc c (List.mem_cons_self c cs)
    · exact mem_attenuate_chunks_length md cs bs ps
        (fun x hx => hc x (List.mem_cons_of_mem c hx)) r hr'
  | [], _, _, _, r, hr => absurd hr (by simp [attenuate_chunks])
  | c :: cs, [], ps, hc, r, hr => by
    simp only [attenuate_chunks] at hr
    exact hc r hr
  | c :: cs, b :: bs, [], hc, r, hr => by
    simp only [attenuate_chunks] at hr
    exact hc r hr

/-- Indexing into the flattening of a list of constant-length rows. -/
theorem flatten_getD_of_const {α : Type} (d : α) {w : Nat} (h0 : 0 < w) :
    ∀ (L : List (List α)) (i : Nat), (∀ r ∈ L, r.length = w) → i < w * L.length →
      L.flatten.getD i d = (L.getD (i / w) []).getD (i % w) d
  | [], i, _, hi => by simp at hi
  | r :: L, i, hlen, hi => by
    have hr : r.length = w := hlen r (List.mem_cons_self r L)
    rcases Nat.lt_or_ge i w with hlt | hge
    · rw [List.flatten_cons,
        List.getD_append _ _ _ _ (by rw [hr]; exact hlt),
        Nat.div_eq_of_lt hlt, Nat.mod_eq_of_lt hlt, List.getD_cons_zero]
    · have hmul : w * (L.length + 1) = w * L.length + w := Nat.mul_succ w L.length
      have hiw : i = (i - w) + w := by omega
      have hdiv : i / w = (i - w) / w + 1 := by
        conv_lhs => rw [hiw]
        rw [Nat.add_div_right _ h0]
      have hmod : i % w = (i - w) % w := by
        conv_lhs => rw [hiw]
        rw [Nat.add_mod_right]
      rw [List.flatten_cons,
        List.getD_append_right _ _ _ _ (by rw [hr]; exact hge),
        hr, hdiv, hmod, List.getD_cons_succ]
      exact flatten_getD_of_const d h0 L (i - w)
        (fun x hx => hlen x (List.mem_cons_of_mem r hx))
        (by rw [List.length_cons] at hi; omega)

/-- Chunk `k` of `chunksExact` is the `w`-element slice at offset `k·w`. -/
theorem chunksExact_getD {α : Type} {w : Nat} (l : List α) (k : Nat)
    (hk : k < l.length / w) :
    (chunksExact w l).getD k [] = (l.drop (k * w)).take w := by
  have hb : k < (chunksExact w l).length := by
    unfold chunksExact
    simpa using hk
  rw [List.getD_eq_getElem _ _ hb]
  unfold chunksExact
  simp

theorem chunksExact_length {α : Type} (w : Nat) (l : List α) :
    (chunksExact w l).length = l.length / w := by
  unfold chunksExact
  simp

theorem getD_take_drop {α : Type} (d : α) (l : List α) (k w j : Nat) (hj : j < w)
    (hlen : k * w + w ≤ l.length) :
    ((l.drop (k * w)).take w).getD j d = l.getD (k * w + j) d := by
  have hb : j < ((l.drop (k * w)).take w).length := by
    simp only [List.length_take, List.length_drop]
    omega
  rw [List.getD_eq_getElem _ _ hb, List.getD_eq_getElem _ _ (by omega)]
  rw [List.getElem_take, List.getElem_drop]

/-- C8: whenever a previous frame is retained, the quantize stage rewrites
each importance value per pixel exactly as the claim states: with
`q = 100 − color_quality` and `min_diff = 80 + q·q`, the value becomes 0 when
`colordiff(prev, current) < min_diff`, and otherwise
`(min(256, t·t) · importance) / 256` with `t = colordiff / 32` (truncating
division throughout). -/
theorem attenuate_importance_pixel_rule (s : Settings) (prev image : Image)
    (imp : List Nat) (w h : Nat) (hw : image.width = w) (hwp : prev.width = w)
    (hdc : image.data.length = w * h) (hdp : prev.data.length = w * h)
    (hil : imp.length = w * h) (i : Nat) (hi : i < w * h) :
    (attenuate_importance s prev image imp).getD i 0 =
      (if colordiff (prev.data.getD i ⟨0, 0, 0, 0⟩) (image.data.getD i ⟨0, 0, 0, 0⟩) <
          80 + (100 - s.color_quality) * (100 - s.color_quality) then 0
       else min 256
          (colordiff (prev.data.getD i ⟨0, 0, 0, 0⟩) (image.data.getD i ⟨0, 0, 0, 0⟩) / 32 *
            (colordiff (prev.data.getD i ⟨0, 0, 0, 0⟩) (image.data.getD i ⟨0, 0, 0, 0⟩) / 32)) *
          imp.getD i 0 / 256) := by
  have h0 : 0 < w := by
    rcases Nat.eq_zero_or_pos w with rfl | h0
    · simp at hi
    · exact h0
  have hkb : i / w < h := Nat.div_lt_of_lt_mul hi
  have hjb : i % w < w := Nat.mod_lt i h0
  have hslice : i / w * w + w ≤ w * h := by
    have h1 : (i / w + 1) * w ≤ h * w := Nat.mul_le_mul_right w (by omega)
    have h2 : (i / w + 1) * w = i / w * w + w := Nat.succ_mul _ _
    have h3 : h * w = w * h := Nat.mul_comm h w
    omega
  -- lengths and quotients of the three chunked buffers
  have hqi : imp.length / image.width = h := by
    rw [hil, hw, Nat.mul_div_cancel_left h h0]
  have hqp : prev.data.length / prev.width = h := by
    rw [hdp, hwp, Nat.mul_div_cancel_left h h0]
  have hqc : image.data.length / image.width = h := by
    rw [hdc, hw, Nat.mul_div_cancel_left h h0]
  have hCl : (chunksExact image.width imp).length = h := by
    rw [chunksExact_length, hqi]
  have hPl : prev.rows.length = h := by
    rw [Image.rows, chunksExact_length, hqp]
  have hIl : image.rows.length = h := by
    rw [Image.rows, chunksExact_length, hqc]
  have hCrows : ∀ r ∈ chunksExact image.width imp, r.length = w :=
    fun r hr => hw ▸ length_of_mem_chunksExact (hw ▸ h0) hr
  -- the remainder that `chunks_exact_mut` never touches is empty here
  have hrem : imp.drop (imp.length / image.width * image.width) = [] := by
    apply List.drop_eq_nil_of_le
    rw [hqi, hw, hil]
    exact (Nat.mul_comm w h).le
  set md := 80 + (100 - s.color_quality) * (100 - s.color_quality) with hmd
  have hAl : (attenuate_chunks md (chunksExact image.width imp) prev.rows
      image.rows).length = h := by
    rw [attenuate_chunks_length, hCl]
  have hArows : ∀ r ∈ attenuate_chunks md (chunksExact image.width imp) prev.rows
      image.rows, r.length = w :=
    mem_attenuate_chunks_length md _ _ _ hCrows
  have hflat : (attenuate_chunks md (chunksExact image.width imp) prev.rows
        image.rows).flatten.getD i 0 =
      ((attenuate_chunks md (chunksExact image.width imp) prev.rows
        image.rows).getD (i / w) []).getD (i % w) 0 :=
    flatten_getD_of_const 0 h0 _ i hArows (by rw [hAl]; exact hi)
  have hchunkD : (attenuate_chunks md (chunksExact image.width imp) prev.rows
        image.rows).getD (i / w) [] =
      attenuate_row md (prev.rows.getD (i / w) []) (image.rows.getD (i / w) [])
        ((chunksExact image.width imp).getD (i / w) []) :=
    attenuate_chunks_getD md _ _ _ (i / w) (by omega) (by omega) (by omega)
  have hCk : (chunksExact image.width imp).getD (i / w) [] =
      (imp.drop (i / w * w)).take w := by
    rw [hw]
    exact chunksExact_getD imp (i / w) (by rw [hil, Nat.mul_div_cancel_left h h0]; exact hkb)
  have hPk : prev.rows.getD (i / w) [] = (prev.data.drop (i / w * w)).take w := by
    rw [Image.rows, hwp]
    exact chunksExact_getD prev.data (i / w)
      (by rw [hdp, Nat.mul_div_cancel_left h h0]; exact hkb)
  have hIk : image.rows.getD (i / w) [] = (image.data.drop (i / w * w)).take w := by
    rw [Image.rows, hw]
    exact chunksExact_getD image.data (i / w)
      (by rw [hdc, Nat.mul_div_cancel_left h h0]; exact hkb)
  have hidx : i / w * w + i % w = i := by
    rw [Nat.mul_comm (i / w) w]
    exact Nat.div_add_mod i w
  have hrowD : (attenuate_row md ((prev.data.drop (i / w * w)).take w)
        ((image.data.drop (i / w * w)).take w)
        ((imp.drop (i / w * w)).take w)).getD (i % w) 0 =
      attenuate_px md (prev.data.getD i ⟨0, 0, 0, 0⟩) (image.data.getD i ⟨0, 0, 0, 0⟩)
        (imp.getD i 0) := by
    rw [attenuate_row_getD md _ _ _ (i % w)
      (by simp only [List.length_take, List.length_drop]; omega)
      (by simp only [List.length_take, List.length_drop]; omega)
      (by simp only [List.length_take, List.length_drop]; omega)]
    rw [getD_take_drop _ _ _ _ _ hjb (by omega),
      getD_take_drop _ _ _ _ _ hjb (by omega),
      getD_take_drop _ _ _ _ _ hjb (by omega), hidx]
  show ((attenuate_chunks _ _ _ _).flatten ++
      imp.drop (imp.length / image.width * image.width)).getD i 0 = _
  rw [hrem, List.append_nil, hflat, hchunkD, hCk, hPk, hIk, hrowD]
  unfold attenuate_px
  rw [Nat.min_comm]

/-- Concrete instantiation of `attenuate_importance_pixel_rule` on a 1×1
frame pair at full quality: identical pixels have their importance zeroed. -/
theorem attenuate_importance_pixel_rule_witness :
    (attenuate_importance ⟨none, none, 100, false, .Infinite⟩
        ⟨1, 1, [⟨5, 5, 5, 255⟩]⟩ ⟨1, 1, [⟨5, 5, 5, 255⟩]⟩ [200]).getD 0 0 =
      (if colordiff (([⟨5, 5, 5, 255⟩] : List RGBA).getD 0 ⟨0, 0, 0, 0⟩)
            (([⟨5, 5, 5, 255⟩] : List RGBA).getD 0 ⟨0, 0, 0, 0⟩) <
          80 + (100 - Settings.color_quality ⟨none, none, 100, false, .Infinite⟩) *
            (100 - Settings.color_quality ⟨none, none, 100, false, .Infinite⟩) then 0
       else min 256
          (colordiff (([⟨5, 5, 5, 255⟩] : List RGBA).getD 0 ⟨0, 0, 0, 0⟩)
              (([⟨5, 5, 5, 255⟩] : List RGBA).getD 0 ⟨0, 0, 0, 0⟩) / 32 *
            (colordiff (([⟨5, 5, 5, 255⟩] : List RGBA).getD 0 ⟨0, 0, 0, 0⟩)
              (([⟨5, 5, 5, 255⟩] : List RGBA).getD 0 ⟨0, 0, 0, 0⟩) / 32)) *
          (([200] : List Nat).getD 0 0) / 256) :=
  attenuate_importance_pixel_rule ⟨none, none, 100, false, .Infinite⟩
    ⟨1, 1, [⟨5, 5, 5, 255⟩]⟩ ⟨1, 1, [⟨5, 5, 5, 255⟩]⟩ [200] 1 1
    rfl rfl rfl rfl rfl 0 (by decide)
